import Mathlib

/-!
Verification development for the appoint-maker repository.

The repository contains several near-duplicate evolutions of one React
component.  The interval model, gesture classifier and candidate
projection are embedded here as pure Lean functions:

* `addOrMergeSlot` — the upsert operation of `src/unnamed/part_000`
  (lines 86–123), which supports an optional `excludeId` used by the
  resize-commit path.  The nondeterministic `crypto.randomUUID()` is
  threaded in as an explicit `freshId` argument, and the React
  `setSlots` update is modelled as a pure function on the slot list.
* `addOrMergeSlotApp` — the upsert operation of `src/src/App.tsx`
  (lines 1162–1196), which has an exact-duplicate short circuit and no
  `excludeId` parameter.
* `candidateListText` — the candidate projection of
  `src/unnamed/part_000` (lines 246–263).
* `formatCandidates` / `candidateLinesV2` — the projection of the
  `allDayRanges` variant in `src/src/App.tsx` (lines 536–566, 728–738).
* `stepTrack` — the long-press gesture state machine of
  `src/unnamed/part_000` (lines 127–179), with `window.setTimeout` /
  `window.clearTimeout` modelled by an explicit list of pending timers
  and commits to the model recorded in a log.

JavaScript `Array.prototype.sort(cmp)` with a consistent comparator is
modelled by `List.insertionSort` of the corresponding relation
(`localeCompare` on ISO date strings agrees with the codepoint order of
`String`).  Minutes are integers, as in the source.
-/

/-- An interval of the committed collection, `type Slot` of
`src/unnamed/part_000`.  The source field `end` is a Lean keyword and is
rendered `endM`. -/
structure Slot where
  id : String
  dateISO : String
  start : Int
  endM : Int
  deriving Repr, DecidableEq

/-- `const clamp = (v, min, max) => Math.max(min, Math.min(max, v))`. -/
def clamp (v lo hi : Int) : Int := max lo (min hi v)

/-- The merge test of the scan loop of `addOrMergeSlot`
(`src/unnamed/part_000` lines 100–113): the slot `p` lies on the given
date and either overlaps (`!(p.end <= mergedStart || mergedEnd <=
p.start)`) or touches (`p.end === mergedStart || mergedEnd ===
p.start`) the running candidate `[ms, me]`. -/
def absorbs (d : String) (ms me : Int) (p : Slot) : Prop :=
  p.dateISO = d ∧ (¬(p.endM ≤ ms ∨ me ≤ p.start) ∨ (p.endM = ms ∨ me = p.start))

instance (d : String) (ms me : Int) (p : Slot) : Decidable (absorbs d ms me p) := by
  unfold absorbs; infer_instance

/-- Result of the left-to-right merge scan: final candidate bounds, the
kept slots (pushed onto `rest` in the source) and the absorbed slots. -/
structure ScanR where
  ms : Int
  me : Int
  rest : List Slot
  absorbed : List Slot
  deriving Repr, DecidableEq

/-- The `for (const p of filtered)` loop of `addOrMergeSlot`
(`src/unnamed/part_000` lines 96–114): each slot is tested against the
running candidate; a slot on another date or a separated slot is kept,
a matching slot is absorbed, widening the candidate to
`min(mergedStart, p.start)` / `max(mergedEnd, p.end)`. -/
def scanMerge (d : String) (ms me : Int) : List Slot → ScanR
  | [] => ⟨ms, me, [], []⟩
  | p :: ps =>
    if absorbs d ms me p then
      let r := scanMerge d (min ms p.start) (max me p.endM) ps
      ⟨r.ms, r.me, r.rest, p :: r.absorbed⟩
    else
      let r := scanMerge d ms me ps
      ⟨r.ms, r.me, p :: r.rest, r.absorbed⟩

/-- The final sort comparator
`(a, b) => a.dateISO === b.dateISO ? a.start - b.start :
a.dateISO.localeCompare(b.dateISO)` of `src/unnamed/part_000`
lines 119–121. -/
def slotLe (a b : Slot) : Prop :=
  if a.dateISO = b.dateISO then a.start ≤ b.start else a.dateISO < b.dateISO

instance : DecidableRel slotLe := by
  intro a b; unfold slotLe; infer_instance

instance : IsTotal Slot slotLe := by
  constructor
  intro a b
  unfold slotLe
  by_cases h : a.dateISO = b.dateISO
  · rcases le_total a.start b.start with h' | h'
    · left; rw [if_pos h]; exact h'
    · right; rw [if_pos h.symm]; exact h'
  · rcases lt_or_gt_of_ne h with h' | h'
    · left; rw [if_neg h]; exact h'
    · right; rw [if_neg (Ne.symm h)]; exact h'

instance : IsTrans Slot slotLe := by
  constructor
  intro a b c hab hbc
  unfold slotLe at *
  by_cases h1 : a.dateISO = b.dateISO <;> by_cases h2 : b.dateISO = c.dateISO
  · rw [if_pos h1] at hab
    rw [if_pos h2] at hbc
    rw [if_pos (h1.trans h2)]
    exact le_trans hab hbc
  · rw [if_neg h2] at hbc
    have h3 : ¬ a.dateISO = c.dateISO := fun h => h2 (h1.symm.trans h)
    rw [if_neg h3, h1]
    exact hbc
  · rw [if_neg h1] at hab
    have h3 : ¬ a.dateISO = c.dateISO := fun h => h1 (h.trans h2.symm)
    rw [if_neg h3, ← h2]
    exact hab
  · rw [if_neg h1] at hab
    rw [if_neg h2] at hbc
    by_cases h3 : a.dateISO = c.dateISO
    · exact absurd (hab.trans hbc) (by rw [h3]; exact lt_irrefl _)
    · rw [if_neg h3]
      exact hab.trans hbc

/-- The trailing `.sort(...)` of `addOrMergeSlot`. -/
def sortSlots (l : List Slot) : List Slot := l.insertionSort slotLe

/-- Clamping of the raw start minute: `start = clamp(start, 0, 1425)`. -/
def preStart (s : Int) : Int := clamp s 0 1425

/-- Preprocessing of the raw end minute: `end = clamp(end, 15, 1440)`
followed by `if (end - start < 30) end = Math.min(start + 30, 1440)`. -/
def preEnd (s e : Int) : Int :=
  let e1 := clamp e 15 1440
  if e1 - preStart s < 30 then min (preStart s + 30) 1440 else e1

/-- The `excludeId` filter: `excludeId ? prev.filter(p => p.id !==
excludeId) : prev`. -/
def filteredOf (slots : List Slot) : Option String → List Slot
  | some ex => slots.filter (fun p => p.id ≠ ex)
  | none => slots

/-- `addOrMergeSlot(dateISO, start, end, excludeId?)` of
`src/unnamed/part_000` lines 86–123, acting on an explicit slot list.
`freshId` stands for the `crypto.randomUUID()` value so that
`newId = excludeId || crypto.randomUUID()`. -/
def addOrMergeSlot (slots : List Slot) (dateISO : String) (start endv : Int)
    (excludeId : Option String) (freshId : String) : List Slot :=
  let s := preStart start
  let e := preEnd start endv
  if s ≥ e then slots
  else
    let r := scanMerge dateISO s e (filteredOf slots excludeId)
    let newId := excludeId.getD freshId
    sortSlots (r.rest ++ [⟨newId, dateISO, r.ms, r.me⟩])

/-- `addOrMergeSlot(dateISO, start, end)` of `src/src/App.tsx`
lines 1162–1196: clamps differ (`[0,1410]` / `[30,1440]`, no minimum
duration enforcement), `start >= end` aborts, an exact duplicate
`(dateISO, start, end)` short-circuits to the unchanged list, and the
merge scan and final sort are as in `addOrMergeSlot`. -/
def addOrMergeSlotApp (slots : List Slot) (dateISO : String) (start endv : Int)
    (freshId : String) : List Slot :=
  let s := clamp start 0 1410
  let e := clamp endv 30 1440
  if s ≥ e then slots
  else if slots.any (fun p => p.dateISO = dateISO ∧ p.start = s ∧ p.endM = e) then slots
  else
    let r := scanMerge dateISO s e slots
    sortSlots (r.rest ++ [⟨freshId, dateISO, r.ms, r.me⟩])

/-- Strict separation of two slots: the negation of "overlap or touch"
used by the collection invariant (`a.end >= b.start && b.end >= a.start`
fails in both orders). -/
def ssep (a b : Slot) : Prop := a.endM < b.start ∨ b.endM < a.start

/-- Strict separation of a slot from the candidate interval `[ms, me]`. -/
def isep (ms me : Int) (p : Slot) : Prop := p.endM < ms ∨ me < p.start

/-- The collection invariant on a slot list: any two slots of the same
date are strictly separated (no overlapping and no touching pairs). -/
def sepByDate (l : List Slot) : Prop :=
  l.Pairwise (fun a b => a.dateISO = b.dateISO → ssep a b)

/-- Basic well-formedness: every slot is a nonempty range. -/
def slotsWF (l : List Slot) : Prop := ∀ p ∈ l, p.start < p.endM

/-! ### Lemmas about the merge scan -/

theorem scanMerge_rest_sublist (d : String) :
    ∀ (l : List Slot) (ms me : Int), (scanMerge d ms me l).rest.Sublist l := by
  intro l
  induction l with
  | nil => intro ms me; simp [scanMerge]
  | cons p ps ih =>
    intro ms me
    by_cases h : absorbs d ms me p
    · simp only [scanMerge, if_pos h]
      exact (ih _ _).cons p
    · simp only [scanMerge, if_neg h]
      exact (ih _ _).cons₂ p

theorem scanMerge_absorbed_sublist (d : String) :
    ∀ (l : List Slot) (ms me : Int), (scanMerge d ms me l).absorbed.Sublist l := by
  intro l
  induction l with
  | nil => intro ms me; simp [scanMerge]
  | cons p ps ih =>
    intro ms me
    by_cases h : absorbs d ms me p
    · simp only [scanMerge, if_pos h]
      exact (ih _ _).cons₂ p
    · simp only [scanMerge, if_neg h]
      exact (ih _ _).cons p

theorem scanMerge_perm (d : String) :
    ∀ (l : List Slot) (ms me : Int),
      ((scanMerge d ms me l).rest ++ (scanMerge d ms me l).absorbed).Perm l := by
  intro l
  induction l with
  | nil => intro ms me; simp [scanMerge]
  | cons p ps ih =>
    intro ms me
    by_cases h : absorbs d ms me p
    · simp only [scanMerge, if_pos h]
      exact List.perm_middle.trans ((ih _ _).cons p)
    · simp only [scanMerge, if_neg h]
      exact (ih _ _).cons p

theorem scanMerge_absorbed_date (d : String) :
    ∀ (l : List Slot) (ms me : Int), ∀ p ∈ (scanMerge d ms me l).absorbed, p.dateISO = d := by
  intro l
  induction l with
  | nil => intro ms me p hp; simp [scanMerge] at hp
  | cons q ps ih =>
    intro ms me p hp
    by_cases h : absorbs d ms me q
    · simp only [scanMerge, if_pos h] at hp
      rcases List.mem_cons.mp hp with hp | hp
      · exact hp ▸ h.1
      · exact ih _ _ p hp
    · simp only [scanMerge, if_neg h] at hp
      exact ih _ _ p hp

theorem scanMerge_hull_le (d : String) :
    ∀ (l : List Slot) (ms me : Int),
      (scanMerge d ms me l).ms ≤ ms ∧ me ≤ (scanMerge d ms me l).me := by
  intro l
  induction l with
  | nil => intro ms me; simp [scanMerge]
  | cons p ps ih =>
    intro ms me
    by_cases h : absorbs d ms me p
    · simp only [scanMerge, if_pos h]
      have := ih (min ms p.start) (max me p.endM)
      omega
    · simp only [scanMerge, if_neg h]
      exact ih ms me

theorem scanMerge_ms_foldl (d : String) :
    ∀ (l : List Slot) (ms me : Int),
      (scanMerge d ms me l).ms
        = (scanMerge d ms me l).absorbed.foldl (fun a p => min a p.start) ms := by
  intro l
  induction l with
  | nil => intro ms me; simp [scanMerge]
  | cons p ps ih =>
    intro ms me
    by_cases h : absorbs d ms me p
    · simp only [scanMerge, if_pos h, List.foldl_cons]
      exact ih _ _
    · simp only [scanMerge, if_neg h]
      exact ih _ _

theorem scanMerge_me_foldl (d : String) :
    ∀ (l : List Slot) (ms me : Int),
      (scanMerge d ms me l).me
        = (scanMerge d ms me l).absorbed.foldl (fun a p => max a p.endM) me := by
  intro l
  induction l with
  | nil => intro ms me; simp [scanMerge]
  | cons p ps ih =>
    intro ms me
    by_cases h : absorbs d ms me p
    · simp only [scanMerge, if_pos h, List.foldl_cons]
      exact ih _ _
    · simp only [scanMerge, if_neg h]
      exact ih _ _

/-- A slot accepted by the merge test meets the candidate hull (its end
is at or after `ms` and its start at or before `me`). -/
theorem absorbs_bounds {d : String} {ms me : Int} {p : Slot}
    (h : absorbs d ms me p) (hwf : p.start < p.endM) (hm : ms ≤ me) :
    ms ≤ p.endM ∧ p.start ≤ me := by
  rcases h with ⟨-, h⟩
  omega

/-- A same-date slot rejected by the merge test is strictly separated
from the candidate hull. -/
theorem not_absorbs_isep {d : String} {ms me : Int} {p : Slot}
    (h : ¬ absorbs d ms me p) (hd : p.dateISO = d) : isep ms me p := by
  have h2 : ¬(¬(p.endM ≤ ms ∨ me ≤ p.start) ∨ (p.endM = ms ∨ me = p.start)) :=
    fun hc => h ⟨hd, hc⟩
  unfold isep
  omega

/-- Widening the hull by an absorbed slot `q` keeps a slot `p` strictly
separated, provided `p` was separated from both the hull and `q`. -/
theorem isep_grow {ms me : Int} {p q : Slot}
    (hp : p.start ≤ p.endM) (hq : q.start ≤ q.endM)
    (hqa : ms ≤ q.endM ∧ q.start ≤ me)
    (hpq : ssep p q) (hip : isep ms me p) :
    isep (min ms q.start) (max me q.endM) p := by
  unfold ssep at hpq
  unfold isep at *
  omega

/-- A slot strictly separated from the initial hull and from every
same-date slot of the scanned list stays strictly separated from the
final hull. -/
theorem scanMerge_isep (d : String) (p : Slot) (hp : p.start ≤ p.endM) :
    ∀ (l : List Slot) (ms me : Int), ms ≤ me → (∀ q ∈ l, q.start < q.endM) →
      isep ms me p → (∀ q ∈ l, q.dateISO = d → ssep p q) →
      isep (scanMerge d ms me l).ms (scanMerge d ms me l).me p := by
  intro l
  induction l with
  | nil => intro ms me _ _ hip _; simpa [scanMerge] using hip
  | cons q ps ih =>
    intro ms me hm hwf hip hsep
    by_cases h : absorbs d ms me q
    · simp only [scanMerge, if_pos h]
      have hqwf : q.start < q.endM := hwf q (List.mem_cons_self q ps)
      have hqa := absorbs_bounds h hqwf hm
      have hpq : ssep p q := hsep q (List.mem_cons_self q ps) h.1
      exact ih (min ms q.start) (max me q.endM) (by omega)
        (fun r hr => hwf r (List.mem_cons_of_mem q hr))
        (isep_grow hp (le_of_lt hqwf) hqa hpq hip)
        (fun r hr hd => hsep r (List.mem_cons_of_mem q hr) hd)
    · simp only [scanMerge, if_neg h]
      exact ih ms me hm (fun r hr => hwf r (List.mem_cons_of_mem q hr)) hip
        (fun r hr hd => hsep r (List.mem_cons_of_mem q hr) hd)

/-- Every same-date slot kept by the scan is strictly separated from the
final hull, assuming the collection invariant on the scanned list. -/
theorem scanMerge_rest_isep (d : String) :
    ∀ (l : List Slot) (ms me : Int), ms ≤ me →
      (∀ q ∈ l, q.start < q.endM) →
      l.Pairwise (fun a b => a.dateISO = b.dateISO → ssep a b) →
      ∀ p ∈ (scanMerge d ms me l).rest, p.dateISO = d →
        isep (scanMerge d ms me l).ms (scanMerge d ms me l).me p := by
  intro l
  induction l with
  | nil => intro ms me _ _ _ p hp; simp [scanMerge] at hp
  | cons q ps ih =>
    intro ms me hm hwf hpw p hp hd
    rcases List.pairwise_cons.mp hpw with ⟨hq, hpw'⟩
    by_cases h : absorbs d ms me q
    · simp only [scanMerge, if_pos h] at hp ⊢
      have hqwf : q.start < q.endM := hwf q (List.mem_cons_self q ps)
      exact ih (min ms q.start) (max me q.endM) (by omega)
        (fun r hr => hwf r (List.mem_cons_of_mem q hr)) hpw' p hp hd
    · simp only [scanMerge, if_neg h] at hp ⊢
      rcases List.mem_cons.mp hp with hp | hp
      · subst hp
        exact scanMerge_isep d p (le_of_lt (hwf p (List.mem_cons_self p ps))) ps ms me hm
          (fun r hr => hwf r (List.mem_cons_of_mem p hr))
          (not_absorbs_isep h hd)
          (fun r hr hrd => hq r hr (hd.trans hrd.symm))
      · exact ih ms me hm (fun r hr => hwf r (List.mem_cons_of_mem q hr)) hpw' p hp hd

/-- The preprocessing of `addOrMergeSlot` always produces a candidate
with `start < end`: the guard `if (start >= end) return` of
`src/unnamed/part_000` line 90 can never fire. -/
theorem preStart_lt_preEnd (s e : Int) : preStart s < preEnd s e := by
  simp only [preStart, preEnd, clamp]
  split_ifs <;> omega

instance (a b : Slot) : Decidable (ssep a b) := by
  unfold ssep; infer_instance

instance (ms me : Int) (p : Slot) : Decidable (isep ms me p) := by
  unfold isep; infer_instance

instance (l : List Slot) : Decidable (sepByDate l) := by
  unfold sepByDate; infer_instance

instance (l : List Slot) : Decidable (slotsWF l) := by
  unfold slotsWF; infer_instance

theorem filteredOf_sublist (slots : List Slot) (exId : Option String) :
    (filteredOf slots exId).Sublist slots := by
  cases exId with
  | none => exact List.Sublist.refl slots
  | some ex => exact List.filter_sublist slots

/-- The collection-invariant relation is symmetric. -/
theorem sepRel_symm : ∀ {a b : Slot},
    (a.dateISO = b.dateISO → ssep a b) → (b.dateISO = a.dateISO → ssep b a) :=
  fun h hd => Or.symm (h hd.symm)

/-- Unfolding of the non-abort branch of `addOrMergeSlot`: since the
preprocessed candidate always satisfies `start < end`, the operation is
the merge scan followed by the insertion of the merged slot and the
final sort. -/
theorem addOrMergeSlot_eq (slots : List Slot) (d : String) (s e : Int)
    (exId : Option String) (fid : String) :
    addOrMergeSlot slots d s e exId fid
      = sortSlots ((scanMerge d (preStart s) (preEnd s e) (filteredOf slots exId)).rest
          ++ [⟨exId.getD fid, d,
               (scanMerge d (preStart s) (preEnd s e) (filteredOf slots exId)).ms,
               (scanMerge d (preStart s) (preEnd s e) (filteredOf slots exId)).me⟩]) := by
  simp only [addOrMergeSlot]
  rw [if_neg (not_le.mpr (preStart_lt_preEnd s e))]

/-- Main preservation lemma: on a well-formed, per-date separated
collection, `addOrMergeSlot` yields a per-date separated collection
whose slots of equal date appear in ascending `start` order. -/
theorem addOrMergeSlot_sep_sorted (slots : List Slot) (d : String) (s e : Int)
    (exId : Option String) (fid : String)
    (hwf : slotsWF slots) (hsep : sepByDate slots) :
    sepByDate (addOrMergeSlot slots d s e exId fid) ∧
      (addOrMergeSlot slots d s e exId fid).Pairwise
        (fun a b => a.dateISO = b.dateISO → a.start ≤ b.start) := by
  rw [addOrMergeSlot_eq]
  have hlt := preStart_lt_preEnd s e
  have hFsub := filteredOf_sublist slots exId
  have hFwf : ∀ q ∈ filteredOf slots exId, q.start < q.endM :=
    fun q hq => hwf q (hFsub.subset hq)
  have hFsep : sepByDate (filteredOf slots exId) := hsep.sublist hFsub
  constructor
  · -- separation, transported through the sorting permutation
    have hpair : sepByDate
        ((scanMerge d (preStart s) (preEnd s e) (filteredOf slots exId)).rest
          ++ [⟨exId.getD fid, d,
               (scanMerge d (preStart s) (preEnd s e) (filteredOf slots exId)).ms,
               (scanMerge d (preStart s) (preEnd s e) (filteredOf slots exId)).me⟩]) := by
      unfold sepByDate
      rw [List.pairwise_append]
      refine ⟨hFsep.sublist (scanMerge_rest_sublist d _ _ _), List.pairwise_singleton _ _, ?_⟩
      intro a ha b hb hdate
      rcases List.mem_singleton.mp hb with rfl
      have hisep := scanMerge_rest_isep d (filteredOf slots exId) (preStart s) (preEnd s e)
        (le_of_lt hlt) hFwf hFsep a ha hdate
      exact hisep
    unfold sepByDate at hpair ⊢
    exact ((List.perm_insertionSort slotLe _).pairwise_iff
      (fun h => sepRel_symm h)).mpr hpair
  · -- per-date ascending starts, from the sort comparator
    have hsorted := List.sorted_insertionSort slotLe
      ((scanMerge d (preStart s) (preEnd s e) (filteredOf slots exId)).rest
        ++ [⟨exId.getD fid, d,
             (scanMerge d (preStart s) (preEnd s e) (filteredOf slots exId)).ms,
             (scanMerge d (preStart s) (preEnd s e) (filteredOf slots exId)).me⟩])
    refine hsorted.imp ?_
    intro a b hle hdate
    unfold slotLe at hle
    rwa [if_pos hdate] at hle

/-- A slot accepted against a hull is still accepted against any wider
hull. -/
theorem absorbs_mono {d : String} {ms me ms' me' : Int} {p : Slot}
    (hwf : p.start < p.endM) (h1 : ms' ≤ ms) (h2 : me ≤ me') (hm : ms ≤ me)
    (h : absorbs d ms me p) : absorbs d ms' me' p := by
  rcases h with ⟨hd, h⟩
  exact ⟨hd, by omega⟩

/-- Completeness of the scan: every slot of the input that overlaps or
touches the initial candidate is absorbed. -/
theorem scanMerge_absorbs_complete (d : String) :
    ∀ (l : List Slot) (ms me : Int), ms ≤ me →
      ∀ p ∈ l, p.start < p.endM → absorbs d ms me p →
        p ∈ (scanMerge d ms me l).absorbed := by
  intro l
  induction l with
  | nil => intro ms me _ p hp; simp at hp
  | cons q ps ih =>
    intro ms me hm p hp hwf habs
    by_cases h : absorbs d ms me q
    · simp only [scanMerge, if_pos h]
      rcases List.mem_cons.mp hp with rfl | hp
      · exact List.mem_cons_self _ _
      · refine List.mem_cons_of_mem _ (ih _ _ ?_ p hp hwf ?_)
        · omega
        · exact absorbs_mono hwf (by omega) (by omega) hm habs
    · simp only [scanMerge, if_neg h]
      rcases List.mem_cons.mp hp with rfl | hp
      · exact absurd habs h
      · exact ih _ _ hm p hp hwf habs

/-- When the scanned list carries no duplicate ids, an absorbed slot is
not among the kept slots. -/
theorem scanMerge_id_disjoint (d : String) (l : List Slot) (ms me : Int)
    (hnd : (l.map Slot.id).Nodup) :
    ∀ p ∈ (scanMerge d ms me l).absorbed, p ∉ (scanMerge d ms me l).rest := by
  intro p hpa hpr
  have hperm := (scanMerge_perm d l ms me).map Slot.id
  rw [List.map_append] at hperm
  have hnd2 : ((scanMerge d ms me l).rest.map Slot.id
      ++ (scanMerge d ms me l).absorbed.map Slot.id).Nodup :=
    hperm.nodup_iff.mpr hnd
  rcases List.nodup_append.mp hnd2 with ⟨-, -, hdisj⟩
  exact hdisj (List.mem_map_of_mem Slot.id hpr) (List.mem_map_of_mem Slot.id hpa)

/-- Membership in the scanned list splits into kept and absorbed. -/
theorem scanMerge_mem_split (d : String) (l : List Slot) (ms me : Int) :
    ∀ p ∈ l, p ∈ (scanMerge d ms me l).rest ∨ p ∈ (scanMerge d ms me l).absorbed := by
  intro p hp
  exact List.mem_append.mp ((scanMerge_perm d l ms me).mem_iff.mpr hp)

theorem foldl_max_le (f : Slot → Int) (c : Int) :
    ∀ (L : List Slot) (b : Int), b ≤ c → (∀ x ∈ L, f x ≤ c) →
      L.foldl (fun a x => max a (f x)) b ≤ c := by
  intro L
  induction L with
  | nil => intro b hb _; simpa using hb
  | cons x xs ih =>
    intro b hb hL
    simp only [List.foldl_cons]
    exact ih (max b (f x)) (by have := hL x (List.mem_cons_self x xs); omega)
      (fun y hy => hL y (List.mem_cons_of_mem x hy))

theorem foldl_min_ge (f : Slot → Int) (c : Int) :
    ∀ (L : List Slot) (b : Int), c ≤ b → (∀ x ∈ L, c ≤ f x) →
      c ≤ L.foldl (fun a x => min a (f x)) b := by
  intro L
  induction L with
  | nil => intro b hb _; simpa using hb
  | cons x xs ih =>
    intro b hb hL
    simp only [List.foldl_cons]
    exact ih (min b (f x)) (by have := hL x (List.mem_cons_self x xs); omega)
      (fun y hy => hL y (List.mem_cons_of_mem x hy))

theorem preStart_bounds (s : Int) : 0 ≤ preStart s ∧ preStart s ≤ 1425 := by
  simp only [preStart, clamp]
  omega

theorem preEnd_le_1440 (s e : Int) : preEnd s e ≤ 1440 := by
  simp only [preStart, preEnd, clamp]
  split_ifs <;> omega

theorem preEnd_sub_ge30 (s e : Int) (h : preStart s ≤ 1410) :
    30 ≤ preEnd s e - preStart s := by
  simp only [preStart, clamp] at h
  simp only [preStart, preEnd, clamp] at *
  split_ifs <;> omega

theorem preEnd_eq_1440 (s e : Int) (h : 1410 < preStart s) : preEnd s e = 1440 := by
  simp only [preStart, clamp] at h
  simp only [preStart, preEnd, clamp] at *
  split_ifs <;> omega

/-! ### Claims about the interval model -/

/-- C1: for every well-formed interval collection whose per-date sets
are pairwise non-overlapping and non-touching, and for every call to the
upsert operation `addOrMergeSlot` with any `dateKey` and any raw
start/end minutes (and any `excludeId` and fresh id), the resulting
collection again contains, for every `dateKey`, no two intervals that
overlap or touch, and each date's intervals appear sorted by
`startMinute` ascending. -/
theorem upsert_preserves_separation_and_order (slots : List Slot) (d : String)
    (s e : Int) (exId : Option String) (fid : String)
    (hwf : slotsWF slots) (hsep : sepByDate slots) :
    sepByDate (addOrMergeSlot slots d s e exId fid) ∧
      (addOrMergeSlot slots d s e exId fid).Pairwise
        (fun a b => a.dateISO = b.dateISO → a.start ≤ b.start) :=
  addOrMergeSlot_sep_sorted slots d s e exId fid hwf hsep

theorem upsert_preserves_separation_and_order_witness :
    slotsWF [⟨"a", "2025-09-25", 600, 660⟩]
      ∧ sepByDate [⟨"a", "2025-09-25", 600, 660⟩]
      ∧ (sepByDate (addOrMergeSlot [⟨"a", "2025-09-25", 600, 660⟩] "2025-09-25" 700 730 none "b")
          ∧ (addOrMergeSlot [⟨"a", "2025-09-25", 600, 660⟩] "2025-09-25" 700 730 none "b").Pairwise
              (fun a b => a.dateISO = b.dateISO → a.start ≤ b.start)) :=
  ⟨by decide, by decide,
    upsert_preserves_separation_and_order [⟨"a", "2025-09-25", 600, 660⟩] "2025-09-25"
      700 730 none "b" (by decide) (by decide)⟩

/-- C3: `upsertInterval(d, 600, 660)` then `upsertInterval(d, 660, 720)`
yields exactly one interval `{600, 720}`; with `(d, 630, 690)` instead
it yields exactly one interval `{600, 690}`; and in general every
existing interval of the working set on the same date that overlaps or
touches the (preprocessed) candidate is absorbed — it disappears from
the result, and the inserted interval's bounds are the running minimum
start and maximum end over the candidate and all absorbed intervals. -/
theorem upsert_merges_overlapping_and_touching :
    (addOrMergeSlot (addOrMergeSlot [] "2025-09-25" 600 660 none "a")
        "2025-09-25" 660 720 none "b" = [⟨"b", "2025-09-25", 600, 720⟩])
    ∧ (addOrMergeSlot (addOrMergeSlot [] "2025-09-25" 600 660 none "a")
        "2025-09-25" 630 690 none "b" = [⟨"b", "2025-09-25", 600, 690⟩])
    ∧ ∀ (slots : List Slot) (d : String) (s e : Int) (exId : Option String)
        (fid : String) (p : Slot),
        (slots.map Slot.id).Nodup → fid ∉ slots.map Slot.id →
        p ∈ filteredOf slots exId → p.start < p.endM →
        absorbs d (preStart s) (preEnd s e) p →
        p ∈ (scanMerge d (preStart s) (preEnd s e) (filteredOf slots exId)).absorbed
        ∧ p ∉ addOrMergeSlot slots d s e exId fid
        ∧ (⟨exId.getD fid, d,
             (scanMerge d (preStart s) (preEnd s e) (filteredOf slots exId)).ms,
             (scanMerge d (preStart s) (preEnd s e) (filteredOf slots exId)).me⟩ : Slot)
            ∈ addOrMergeSlot slots d s e exId fid
        ∧ (scanMerge d (preStart s) (preEnd s e) (filteredOf slots exId)).ms
            = (scanMerge d (preStart s) (preEnd s e) (filteredOf slots exId)).absorbed.foldl
                (fun a q => min a q.start) (preStart s)
        ∧ (scanMerge d (preStart s) (preEnd s e) (filteredOf slots exId)).me
            = (scanMerge d (preStart s) (preEnd s e) (filteredOf slots exId)).absorbed.foldl
                (fun a q => max a q.endM) (preEnd s e) := by
  refine ⟨by decide, by decide, ?_⟩
  intro slots d s e exId fid p hnd hf hpF hwf habs
  have hlt := preStart_lt_preEnd s e
  have h1 : p ∈ (scanMerge d (preStart s) (preEnd s e) (filteredOf slots exId)).absorbed :=
    scanMerge_absorbs_complete d (filteredOf slots exId) _ _ (le_of_lt hlt) p hpF hwf habs
  have hFnd : ((filteredOf slots exId).map Slot.id).Nodup :=
    List.Nodup.sublist (List.Sublist.map Slot.id (filteredOf_sublist slots exId)) hnd
  have hnotrest : p ∉ (scanMerge d (preStart s) (preEnd s e) (filteredOf slots exId)).rest :=
    scanMerge_id_disjoint d _ _ _ hFnd p h1
  have hpid : p.id ∈ slots.map Slot.id :=
    List.mem_map_of_mem Slot.id ((filteredOf_sublist slots exId).subset hpF)
  have hidne : p.id ≠ exId.getD fid := by
    cases exId with
    | none =>
      intro hh
      simp only [Option.getD_none] at hh
      exact hf (hh ▸ hpid)
    | some ex =>
      have hfil := List.mem_filter.mp hpF
      have : p.id ≠ ex := of_decide_eq_true hfil.2
      simpa using this
  refine ⟨h1, ?_, ?_, scanMerge_ms_foldl d _ _ _, scanMerge_me_foldl d _ _ _⟩
  · rw [addOrMergeSlot_eq, sortSlots]
    intro hmem
    rcases List.mem_append.mp ((List.perm_insertionSort slotLe _).mem_iff.mp hmem) with hmem | hmem
    · exact hnotrest hmem
    · rcases List.mem_singleton.mp hmem with hmem
      exact hidne (congrArg Slot.id hmem)
  · rw [addOrMergeSlot_eq, sortSlots]
    exact ((List.perm_insertionSort slotLe _).mem_iff).mpr
      (List.mem_append_right _ (List.mem_singleton.mpr rfl))

theorem upsert_merges_overlapping_and_touching_witness :
    (([⟨"a", "2025-09-25", 600, 660⟩] : List Slot).map Slot.id).Nodup
    ∧ "b" ∉ ([⟨"a", "2025-09-25", 600, 660⟩] : List Slot).map Slot.id
    ∧ (⟨"a", "2025-09-25", 600, 660⟩ : Slot) ∈ filteredOf [⟨"a", "2025-09-25", 600, 660⟩] none
    ∧ ((600 : Int) < 660)
    ∧ absorbs "2025-09-25" (preStart 630) (preEnd 630 690) ⟨"a", "2025-09-25", 600, 660⟩
    ∧ (⟨"a", "2025-09-25", 600, 660⟩ : Slot)
        ∉ addOrMergeSlot [⟨"a", "2025-09-25", 600, 660⟩] "2025-09-25" 630 690 none "b" :=
  ⟨by decide, by decide, by decide, by decide, by decide,
    (upsert_merges_overlapping_and_touching.2.2 [⟨"a", "2025-09-25", 600, 660⟩]
      "2025-09-25" 630 690 none "b" ⟨"a", "2025-09-25", 600, 660⟩
      (by decide) (by decide) (by decide) (by decide) (by decide)).2.1⟩

/-- C4 counterexample: the upsert operation does not abort on
`(d, 1425, 1440)` over the empty collection, yet the resulting interval
is only 15 minutes long (`end = Math.min(start + 30, 1440)` caps the
minimum-duration normalization at the end of the day), refuting the
claim that every produced interval satisfies `end - start ≥ 30`. -/
theorem upsert_min_duration_counterexample :
    ¬ ∀ q ∈ addOrMergeSlot [] "2025-09-25" 1425 1440 none "a",
        30 ≤ q.endM - q.start := by
  decide

/-- C4 amended: on a collection whose members satisfy the data-model
invariant (`0 ≤ start < end ≤ 1440`, duration ≥ 30), every interval of
any `addOrMergeSlot` result satisfies `end - start ≥ 30` unless the
clamped start lies within 30 minutes of the end of the day, in which
case the interval is capped at `end = 1440` and is still at least 15
minutes long; the concrete normalization `upsertInterval(d, 0, 10)`
still yields duration ≥ 30. -/
theorem upsert_min_duration_amended :
    (∀ (slots : List Slot) (d : String) (s e : Int) (exId : Option String) (fid : String),
      (∀ p ∈ slots, 0 ≤ p.start ∧ p.start < p.endM ∧ p.endM ≤ 1440 ∧ 30 ≤ p.endM - p.start) →
      ∀ q ∈ addOrMergeSlot slots d s e exId fid,
        30 ≤ q.endM - q.start ∨ (q.endM = 1440 ∧ 15 ≤ q.endM - q.start))
    ∧ ∀ (d fid : String), ∀ q ∈ addOrMergeSlot [] d 0 10 none fid,
        30 ≤ q.endM - q.start := by
  constructor
  · intro slots d s e exId fid hinv q hq
    rw [addOrMergeSlot_eq, sortSlots] at hq
    rcases List.mem_append.mp ((List.perm_insertionSort slotLe _).mem_iff.mp hq) with hq2 | hq2
    · have hmem : q ∈ slots :=
        (filteredOf_sublist slots exId).subset ((scanMerge_rest_sublist d _ _ _).subset hq2)
      exact Or.inl (hinv q hmem).2.2.2
    · rcases List.mem_singleton.mp hq2 with rfl
      have hle := scanMerge_hull_le d (filteredOf slots exId) (preStart s) (preEnd s e)
      by_cases hcase : preStart s ≤ 1410
      · have h30 := preEnd_sub_ge30 s e hcase
        left
        show 30 ≤ (scanMerge d (preStart s) (preEnd s e) (filteredOf slots exId)).me
          - (scanMerge d (preStart s) (preEnd s e) (filteredOf slots exId)).ms
        omega
      · have h1440 : preEnd s e = 1440 := preEnd_eq_1440 s e (by omega)
        have hub : (scanMerge d (preStart s) (preEnd s e) (filteredOf slots exId)).me ≤ 1440 := by
          rw [scanMerge_me_foldl]
          refine foldl_max_le Slot.endM 1440 _ (preEnd s e) (by omega) ?_
          intro x hx
          exact (hinv x ((filteredOf_sublist slots exId).subset
            ((scanMerge_absorbed_sublist d _ _ _).subset hx))).2.2.1
        have hs25 := (preStart_bounds s).2
        right
        constructor
        · show (scanMerge d (preStart s) (preEnd s e) (filteredOf slots exId)).me = 1440
          omega
        · show 15 ≤ (scanMerge d (preStart s) (preEnd s e) (filteredOf slots exId)).me
            - (scanMerge d (preStart s) (preEnd s e) (filteredOf slots exId)).ms
          omega
  · intro d fid q hq
    have hres : addOrMergeSlot [] d 0 10 none fid = [⟨fid, d, 0, 30⟩] := by
      rw [addOrMergeSlot_eq]
      rfl
    rw [hres] at hq
    rcases List.mem_singleton.mp hq with rfl
    show (30 : Int) ≤ 30 - 0
    omega

theorem upsert_min_duration_amended_witness :
    (∀ p ∈ ([] : List Slot),
        0 ≤ p.start ∧ p.start < p.endM ∧ p.endM ≤ 1440 ∧ 30 ≤ p.endM - p.start)
    ∧ (⟨"a", "2025-09-25", 100, 200⟩ : Slot)
        ∈ addOrMergeSlot [] "2025-09-25" 100 200 none "a"
    ∧ (30 ≤ (⟨"a", "2025-09-25", 100, 200⟩ : Slot).endM
          - (⟨"a", "2025-09-25", 100, 200⟩ : Slot).start
        ∨ ((⟨"a", "2025-09-25", 100, 200⟩ : Slot).endM = 1440
            ∧ 15 ≤ (⟨"a", "2025-09-25", 100, 200⟩ : Slot).endM
                - (⟨"a", "2025-09-25", 100, 200⟩ : Slot).start)) :=
  ⟨by decide, by decide,
    upsert_min_duration_amended.1 [] "2025-09-25" 100 200 none "a" (by decide)
      ⟨"a", "2025-09-25", 100, 200⟩ (by decide)⟩

/-- C5: a resize-commit — a call with an `excludeId` naming an interval
present in the collection — yields a collection with at most one
interval carrying that identity: the old interval is removed from the
working set before insertion and only the merged slot may reuse the id. -/
theorem resize_commit_exclude_id_unique (slots : List Slot) (d : String)
    (s e : Int) (ex fid : String) (hex : ∃ p ∈ slots, p.id = ex) :
    ((addOrMergeSlot slots d s e (some ex) fid).filter (fun q => q.id == ex)).length ≤ 1 := by
  clear hex
  rw [addOrMergeSlot_eq, sortSlots, ← List.countP_eq_length_filter]
  rw [(List.perm_insertionSort slotLe _).countP_eq]
  rw [List.countP_append]
  have hrest : List.countP (fun q => q.id == ex)
      (scanMerge d (preStart s) (preEnd s e) (filteredOf slots (some ex))).rest = 0 := by
    rw [List.countP_eq_zero]
    intro q hq
    have hqF : q ∈ filteredOf slots (some ex) :=
      (scanMerge_rest_sublist d _ _ _).subset hq
    have : q.id ≠ ex := of_decide_eq_true (List.mem_filter.mp hqF).2
    simpa using this
  have hnew : List.countP (fun q => q.id == ex)
      [(⟨(some ex).getD fid, d,
         (scanMerge d (preStart s) (preEnd s e) (filteredOf slots (some ex))).ms,
         (scanMerge d (preStart s) (preEnd s e) (filteredOf slots (some ex))).me⟩ : Slot)] ≤ 1 := by
    simp [List.countP_cons]
  omega

theorem resize_commit_exclude_id_unique_witness :
    (∃ p ∈ ([⟨"a", "2025-09-25", 600, 660⟩] : List Slot), p.id = "a")
    ∧ ((addOrMergeSlot [⟨"a", "2025-09-25", 600, 660⟩] "2025-09-25" 700 800
          (some "a") "z").filter (fun q => q.id == "a")).length ≤ 1 :=
  ⟨⟨⟨"a", "2025-09-25", 600, 660⟩, by decide, by decide⟩,
    resize_commit_exclude_id_unique [⟨"a", "2025-09-25", 600, 660⟩] "2025-09-25" 700 800
      "a" "z" ⟨⟨"a", "2025-09-25", 600, 660⟩, by decide, by decide⟩⟩

/-- C10: the upsert operation is frame-preserving on other dates: every
interval whose date differs from the given `dateKey` and which is not
named by `excludeId` survives unchanged (same identity and bounds) in
the result, and conversely every off-date interval of the result was
already present in the input collection. -/
theorem upsert_preserves_other_dates (slots : List Slot) (d : String) (s e : Int)
    (exId : Option String) (fid : String) :
    (∀ p ∈ slots, p.dateISO ≠ d → (∀ ex, exId = some ex → p.id ≠ ex) →
        p ∈ addOrMergeSlot slots d s e exId fid)
    ∧ (∀ q ∈ addOrMergeSlot slots d s e exId fid, q.dateISO ≠ d → q ∈ slots) := by
  constructor
  · intro p hp hpd hpex
    rw [addOrMergeSlot_eq, sortSlots]
    have hpF : p ∈ filteredOf slots exId := by
      cases exId with
      | none => exact hp
      | some ex =>
        refine List.mem_filter.mpr ⟨hp, ?_⟩
        exact decide_eq_true (hpex ex rfl)
    rcases scanMerge_mem_split d (filteredOf slots exId) (preStart s) (preEnd s e) p hpF
      with hrest | habs
    · exact ((List.perm_insertionSort slotLe _).mem_iff).mpr (List.mem_append_left _ hrest)
    · exact absurd (scanMerge_absorbed_date d _ _ _ p habs) hpd
  · intro q hq hqd
    rw [addOrMergeSlot_eq, sortSlots] at hq
    rcases List.mem_append.mp ((List.perm_insertionSort slotLe _).mem_iff.mp hq) with hq2 | hq2
    · exact (filteredOf_sublist slots exId).subset ((scanMerge_rest_sublist d _ _ _).subset hq2)
    · rcases List.mem_singleton.mp hq2 with rfl
      exact absurd rfl hqd

theorem upsert_preserves_other_dates_witness :
    (⟨"c", "2025-09-26", 100, 200⟩ : Slot)
      ∈ addOrMergeSlot [⟨"a", "2025-09-25", 600, 660⟩, ⟨"c", "2025-09-26", 100, 200⟩]
          "2025-09-25" 700 730 (some "a") "z" :=
  (upsert_preserves_other_dates
      [⟨"a", "2025-09-25", 600, 660⟩, ⟨"c", "2025-09-26", 100, 200⟩]
      "2025-09-25" 700 730 (some "a") "z").1
    ⟨"c", "2025-09-26", 100, 200⟩ (by decide) (by decide)
    (by intro ex hex; cases hex; decide)

/-- The `(dateKey, start, end)` triple of a slot, forgetting identity. -/
def tripleOf (q : Slot) : String × Int × Int := (q.dateISO, q.start, q.endM)

theorem preStart_id (s : Int) (h0 : 0 ≤ s) (h1 : s ≤ 1425) : preStart s = s := by
  simp only [preStart, clamp]
  omega

theorem preEnd_id (s e : Int) (h : 15 ≤ e) (h2 : e ≤ 1440)
    (h3 : 30 ≤ e - preStart s) : preEnd s e = e := by
  simp only [preEnd, clamp]
  have : max 15 (min 1440 e) = e := by omega
  rw [this]
  rw [if_neg (by omega)]

/-- If every same-date slot of the scanned list either carries exactly
the candidate bounds or is strictly separated from them, the scan never
widens the hull, and every absorbed slot carries the candidate bounds. -/
theorem scanMerge_hull_fixed (d : String) (s e : Int) (hse : s < e) :
    ∀ (l : List Slot), (∀ q ∈ l, q.start < q.endM) →
      (∀ q ∈ l, q.dateISO = d → ((q.start = s ∧ q.endM = e) ∨ isep s e q)) →
      (scanMerge d s e l).ms = s ∧ (scanMerge d s e l).me = e
        ∧ ∀ q ∈ (scanMerge d s e l).absorbed, q.start = s ∧ q.endM = e := by
  intro l
  induction l with
  | nil =>
    intro _ _
    refine ⟨rfl, rfl, ?_⟩
    intro q hq
    simp [scanMerge] at hq
  | cons q ps ih =>
    intro hwf hsep
    have hwf' : ∀ r ∈ ps, r.start < r.endM := fun r hr => hwf r (List.mem_cons_of_mem q hr)
    have hsep' : ∀ r ∈ ps, r.dateISO = d → ((r.start = s ∧ r.endM = e) ∨ isep s e r) :=
      fun r hr => hsep r (List.mem_cons_of_mem q hr)
    by_cases h : absorbs d s e q
    · rcases hsep q (List.mem_cons_self q ps) h.1 with ⟨h1, h2⟩ | hq
      · simp only [scanMerge, if_pos h, h1, h2, min_self, max_self]
        obtain ⟨ha, hb, hc⟩ := ih hwf' hsep'
        refine ⟨ha, hb, ?_⟩
        intro r hr
        rcases List.mem_cons.mp hr with rfl | hr
        · exact ⟨h1, h2⟩
        · exact hc r hr
      · exfalso
        have hqwf := hwf q (List.mem_cons_self q ps)
        rcases h with ⟨-, hcond⟩
        unfold isep at hq
        omega
    · simp only [scanMerge, if_neg h]
      exact ih hwf' hsep'

/-- C6 counterexample: inserting the exact duplicate `(d, 600, 660)`
into a collection holding `{id := "a", d, 600, 660}` via the
`part_000` upsert does change the collection — the duplicate is
absorbed by the merge scan and re-inserted under the fresh identity, so
the operation is not a no-op that keeps every interval's identity. -/
theorem duplicate_insert_changes_identity :
    addOrMergeSlot [⟨"a", "2025-09-25", 600, 660⟩] "2025-09-25" 600 660 none "b"
      ≠ [⟨"a", "2025-09-25", 600, 660⟩] := by
  decide

/-- C6 amended: inserting an exact existing `(dateKey, start, end)`
triple is a complete no-op in the `App.tsx` variant (its duplicate
short-circuit returns the collection unchanged, identities included),
while the `part_000` variant preserves the multiset of
`(dateKey, start, end)` triples but replaces the duplicate's identity
with the fresh one. -/
theorem duplicate_insert_amended :
    (∀ (slots : List Slot) (d : String) (s e : Int) (fid : String),
      0 ≤ s → s ≤ 1410 → 30 ≤ e → e ≤ 1440 →
      (∃ p ∈ slots, p.dateISO = d ∧ p.start = s ∧ p.endM = e) →
      addOrMergeSlotApp slots d s e fid = slots)
    ∧ ∀ (slots : List Slot) (d : String) (s e : Int) (fid i : String),
      slotsWF slots → sepByDate slots →
      (⟨i, d, s, e⟩ : Slot) ∈ slots → 0 ≤ s → 30 ≤ e - s → e ≤ 1440 →
      ((addOrMergeSlot slots d s e none fid).map tripleOf).Perm (slots.map tripleOf) := by
  constructor
  · intro slots d s e fid h0 h1 h2 h3 hex
    have hs : clamp s 0 1410 = s := by simp only [clamp]; omega
    have he : clamp e 30 1440 = e := by simp only [clamp]; omega
    simp only [addOrMergeSlotApp, hs, he]
    by_cases hge : s ≥ e
    · rw [if_pos hge]
    · rw [if_neg hge]
      rcases hex with ⟨p, hp, hpd, hps, hpe⟩
      rw [if_pos (List.any_eq_true.mpr ⟨p, hp, decide_eq_true ⟨hpd, hps, hpe⟩⟩)]
  · intro slots d s e fid i hwf hsep hmem hs0 hdur he1440
    have hse : s < e := by omega
    have hips : preStart s = s := preStart_id s hs0 (by omega)
    have hipe : preEnd s e = e := preEnd_id s e (by omega) he1440 (by omega)
    rw [addOrMergeSlot_eq, hips, hipe]
    have hfil : filteredOf slots none = slots := rfl
    rw [hfil]
    have hsymm : Symmetric (fun a b : Slot => a.dateISO = b.dateISO → ssep a b) :=
      fun _ _ h hd => Or.symm (h hd.symm)
    have hsepI : ∀ q ∈ slots, q.dateISO = d → ((q.start = s ∧ q.endM = e) ∨ isep s e q) := by
      intro q hq hqd
      by_cases hqp : q = (⟨i, d, s, e⟩ : Slot)
      · left
        rw [hqp]
        exact ⟨rfl, rfl⟩
      · right
        have hrel := List.Pairwise.forall hsymm hsep hq hmem hqp
        exact hrel (by rw [hqd])
    obtain ⟨hms, hme, habsT⟩ := scanMerge_hull_fixed d s e hse slots hwf hsepI
    have hpabs : (⟨i, d, s, e⟩ : Slot) ∈ (scanMerge d s e slots).absorbed := by
      refine scanMerge_absorbs_complete d slots s e (le_of_lt hse) _ hmem ?_ ?_
      · show s < e
        omega
      · exact ⟨rfl, Or.inl (by show ¬((e : Int) ≤ s ∨ e ≤ s); omega)⟩
    have habs1 : (scanMerge d s e slots).absorbed.map tripleOf = [(d, s, e)] := by
      have hdates := scanMerge_absorbed_date d slots s e
      have hpw : (scanMerge d s e slots).absorbed.Pairwise
          (fun a b => a.dateISO = b.dateISO → ssep a b) :=
        hsep.sublist (scanMerge_absorbed_sublist d slots s e)
      cases hA : (scanMerge d s e slots).absorbed with
      | nil =>
        rw [hA] at hpabs
        cases hpabs
      | cons x xs =>
        cases xs with
        | nil =>
          have hx := habsT x (by rw [hA]; exact List.mem_cons_self x [])
          have hxd := hdates x (by rw [hA]; exact List.mem_cons_self x [])
          simp only [List.map_cons, List.map_nil, tripleOf, hx.1, hx.2, hxd]
        | cons y ys =>
          exfalso
          rw [hA] at hpw
          have hrel := (List.pairwise_cons.mp hpw).1 y (List.mem_cons_self y ys)
          have hx := habsT x (by rw [hA]; exact List.mem_cons_self x (y :: ys))
          have hy := habsT y (by rw [hA]; exact List.mem_cons_of_mem x (List.mem_cons_self y ys))
          have hxd := hdates x (by rw [hA]; exact List.mem_cons_self x (y :: ys))
          have hyd := hdates y (by rw [hA]; exact List.mem_cons_of_mem x (List.mem_cons_self y ys))
          have hss := hrel (by rw [hxd, hyd])
          unfold ssep at hss
          omega
    have h1 : ((sortSlots ((scanMerge d s e slots).rest
          ++ [⟨(none : Option String).getD fid, d,
               (scanMerge d s e slots).ms, (scanMerge d s e slots).me⟩])).map tripleOf).Perm
        ((scanMerge d s e slots).rest.map tripleOf ++ [(d, s, e)]) := by
      have hperm := (List.perm_insertionSort slotLe ((scanMerge d s e slots).rest
          ++ [⟨(none : Option String).getD fid, d,
               (scanMerge d s e slots).ms, (scanMerge d s e slots).me⟩])).map tripleOf
      rw [sortSlots]
      refine hperm.trans ?_
      rw [List.map_append]
      simp only [List.map_cons, List.map_nil, tripleOf, hms, hme]
      exact List.Perm.refl _
    have h2 : (slots.map tripleOf).Perm
        ((scanMerge d s e slots).rest.map tripleOf ++ [(d, s, e)]) := by
      have hp2 := ((scanMerge_perm d slots s e).symm.map tripleOf)
      rw [List.map_append, habs1] at hp2
      exact hp2
    exact h1.trans h2.symm


theorem duplicate_insert_amended_witness :
    (addOrMergeSlotApp [⟨"a", "2025-09-25", 600, 660⟩] "2025-09-25" 600 660 "b"
        = [⟨"a", "2025-09-25", 600, 660⟩])
    ∧ ((addOrMergeSlot [⟨"a", "2025-09-25", 600, 660⟩] "2025-09-25" 600 660 none "b").map
          tripleOf).Perm (([⟨"a", "2025-09-25", 600, 660⟩] : List Slot).map tripleOf) :=
  ⟨duplicate_insert_amended.1 [⟨"a", "2025-09-25", 600, 660⟩] "2025-09-25" 600 660 "b"
      (by decide) (by decide) (by decide) (by decide) (by decide),
    duplicate_insert_amended.2 [⟨"a", "2025-09-25", 600, 660⟩] "2025-09-25" 600 660 "b" "a"
      (by decide) (by decide) (by decide) (by decide) (by decide) (by decide)⟩

/-- C7: inputs whose preprocessed bounds satisfy `start >= end` abort
with no effect.  In the `part_000` variant the preprocessing forces
`start < end` on every input, so the guard is unreachable and the claim
holds vacuously there; in the `App.tsx` variant (whose preprocessing
does not enforce a minimum duration) the guard is reachable and returns
the collection unchanged.  Both operations are total functions, so no
error is ever raised. -/
theorem invalid_range_aborts :
    (∀ s e : Int, preStart s < preEnd s e)
    ∧ ∀ (slots : List Slot) (d : String) (s e : Int) (fid : String),
        clamp e 30 1440 ≤ clamp s 0 1410 →
        addOrMergeSlotApp slots d s e fid = slots := by
  refine ⟨preStart_lt_preEnd, ?_⟩
  intro slots d s e fid h
  simp only [addOrMergeSlotApp]
  rw [if_pos h]

theorem invalid_range_aborts_witness :
    clamp 500 30 1440 ≤ clamp 1000 0 1410
    ∧ addOrMergeSlotApp [⟨"a", "2025-09-25", 600, 660⟩] "2025-09-25" 1000 500 "x"
        = [⟨"a", "2025-09-25", 600, 660⟩] :=
  ⟨by decide,
    invalid_range_aborts.2 [⟨"a", "2025-09-25", 600, 660⟩] "2025-09-25" 1000 500 "x"
      (by decide)⟩

/-! ### Candidate projection -/

/-- `const pad = (n) => (n < 10 ? `0${n}` : `${n}`)`. -/
def pad (n : Int) : String := if n < 10 then "0" ++ toString n else toString n

/-- `const mm = (m) => `${pad((m / 60) | 0)}:${pad(m % 60)}`` of
`src/unnamed/part_000` (for the nonnegative minute values produced by
the model, JS truncation agrees with integer division). -/
def mm (m : Int) : String := pad (m / 60) ++ ":" ++ pad (m % 60)

/-- Digit-string evaluation, the behaviour of JS `Number` on the digit
chunks of a date key. -/
def digitsVal (cs : List Char) : Nat := cs.foldl (fun a c => a * 10 + (c.toNat - 48)) 0

/-- Days since 1970-01-01 of a civil date (proleptic Gregorian), the
day count underlying the JS `Date` the source builds from a date key. -/
def daysFromCivil (y m d : Int) : Int :=
  let y1 := if m ≤ 2 then y - 1 else y
  let era := (if 0 ≤ y1 then y1 else y1 - 399) / 400
  let yoe := y1 - era * 400
  let doy := (153 * (m + (if 2 < m then -3 else 9)) + 2) / 5 + d - 1
  let doe := yoe * 365 + yoe / 4 - yoe / 100 + doy
  era * 146097 + doe - 719468

/-- `Date.prototype.getDay`: 1970-01-01 was a Thursday (4). -/
def jsGetDay (y m d : Int) : Int := (daysFromCivil y m d + 4) % 7

/-- `const weekdayMonStart = (jsDay) => (jsDay + 6) % 7`. -/
def weekdayMonStart (jsDay : Int) : Int := (jsDay + 6) % 7

/-- The weekday kanji string `"月火水木金土日"`, indexed per code unit. -/
def wdKanji : List String := ["月", "火", "水", "木", "金", "土", "日"]

/-- The year/month/day read out of an ISO `YYYY-MM-DD` key, as the JS
`new Date(iso + "T00:00:00")` constructor does for valid keys. -/
def parseISO (iso : String) : Int × Int × Int :=
  ((digitsVal (iso.data.take 4) : Int),
   (digitsVal ((iso.data.drop 5).take 2) : Int),
   (digitsVal ((iso.data.drop 8).take 2) : Int))

/-- The `fmt` helper of `candidateListText` (`src/unnamed/part_000`
lines 248–252): `${month}月${day}日（${weekday kanji}）`. -/
def fmtDateJP (iso : String) : String :=
  let y := (parseISO iso).1
  let m := (parseISO iso).2.1
  let d := (parseISO iso).2.2
  toString m ++ "月" ++ toString d ++ "日（"
    ++ wdKanji.getD (weekdayMonStart (jsGetDay y m d)).toNat "" ++ "）"

/-- `selectedSlotsSorted` of `src/unnamed/part_000` lines 238–244. -/
def selectedSlotsSorted (slots : List Slot) : List Slot := sortSlots slots

/-- One `HH:MM〜HH:MM` span of a slot. -/
def slotSpan (s : Slot) : String := mm s.start ++ "〜" ++ mm s.endM

/-- The sorted distinct date keys of the grouped record
(`Object.keys(grouped).sort()`); JS default sort is codepoint
lexicographic, the order of `String`. -/
def candidateKeys (slots : List Slot) : List String :=
  (((selectedSlotsSorted slots).map Slot.dateISO).dedup).insertionSort (· ≤ ·)

/-- One output line per date key: bullet, formatted date, and the
date's spans joined by `、` in sorted-slot order. -/
def candidateLine (slots : List Slot) (iso : String) : String :=
  "・" ++ fmtDateJP iso ++ "："
    ++ String.intercalate "、"
        (((selectedSlotsSorted slots).filter (fun s => s.dateISO = iso)).map slotSpan)

/-- The list of lines of `candidateListText`. -/
def candidateLines (slots : List Slot) : List String :=
  (candidateKeys slots).map (candidateLine slots)

/-- `candidateListText` of `src/unnamed/part_000` lines 246–263. -/
def candidateListText (slots : List Slot) : String :=
  if (selectedSlotsSorted slots).length = 0 then "（候補なし）"
  else String.intercalate "\n" (candidateLines slots)

/-! The `allDayRanges` variant of `src/src/App.tsx` (second component,
lines 436–1067). -/

/-- `interface Range { start: number; end: number }`. -/
structure Range where
  start : Int
  endM : Int
  deriving Repr, DecidableEq

/-- A JS `Date` as constructed by `new Date(y, m0, d)`. -/
structure CDate where
  y : Int
  m0 : Int
  d : Int
  deriving Repr, DecidableEq

/-- `type CandidateLine = { date: Date; start: number; end: number }`. -/
structure CandidateLine where
  date : CDate
  start : Int
  endM : Int
  deriving Repr, DecidableEq

/-- `toDayKey(date)` = `` `${y}-${m+1}-${d}` `` (no zero padding). -/
def toDayKey (dt : CDate) : String :=
  toString dt.y ++ "-" ++ toString (dt.m0 + 1) ++ "-" ++ toString dt.d

/-- `key.split("-")` on the character list. -/
def splitOnDash : List Char → List (List Char)
  | [] => [[]]
  | c :: cs =>
    if c = '-' then [] :: splitOnDash cs
    else
      match splitOnDash cs with
      | [] => [[c]]
      | h :: t => (c :: h) :: t

/-- `const [y, m, d] = key.split("-").map(Number); new Date(y, m-1, d)`
(`src/src/App.tsx` lines 730–732). -/
def parseDayKey (k : String) : CDate :=
  match (splitOnDash k.data).map (fun cs => (digitsVal cs : Int)) with
  | [y, m, d] => ⟨y, m - 1, d⟩
  | _ => ⟨0, 0, 0⟩

/-- Comparator `(a, b) => a.start - b.start` of `mergeRanges`. -/
def rangeLe (a b : Range) : Prop := a.start ≤ b.start

instance : DecidableRel rangeLe := by
  intro a b; unfold rangeLe; infer_instance

/-- The fold of `mergeRanges` (`src/src/App.tsx` lines 536–550): the
running last result element is merged with any sorted range that starts
at or before its end. -/
def mergeRangesLoop (cur : Range) : List Range → List Range
  | [] => [cur]
  | r :: rs =>
    if r.start ≤ cur.endM then mergeRangesLoop ⟨cur.start, max cur.endM r.endM⟩ rs
    else cur :: mergeRangesLoop r rs

/-- `mergeRanges(ranges)` of `src/src/App.tsx` lines 536–550. -/
def mergeRanges (ranges : List Range) : List Range :=
  match ranges.insertionSort rangeLe with
  | [] => []
  | r :: rs => mergeRangesLoop r rs

/-- `WD_SUN_FIRST`. -/
def WD_SUN_FIRST : List String := ["日", "月", "火", "水", "木", "金", "土"]

/-- `formatDateJP(d)` = `` `${m+1}/${d}(${WD_SUN_FIRST[d.getDay()]})` ``. -/
def formatDateJP (dt : CDate) : String :=
  toString (dt.m0 + 1) ++ "/" ++ toString dt.d ++ "("
    ++ WD_SUN_FIRST.getD (jsGetDay dt.y (dt.m0 + 1) dt.d).toNat "" ++ ")"

/-- `minsToHHmm` of `src/src/App.tsx` lines 461–465. -/
def minsToHHmm (mins : Int) : String := pad (mins / 60) ++ ":" ++ pad (mins % 60)

/-- Comparator `a.date.getTime() - b.date.getTime() || a.start - b.start`
of the `candidateLines` memo (`src/src/App.tsx` line 735); for the
midnight dates involved, `getTime` is ordered exactly as the civil day
count. -/
def candidateLineLe (a b : CandidateLine) : Prop :=
  daysFromCivil a.date.y (a.date.m0 + 1) a.date.d
      < daysFromCivil b.date.y (b.date.m0 + 1) b.date.d
    ∨ (daysFromCivil a.date.y (a.date.m0 + 1) a.date.d
          = daysFromCivil b.date.y (b.date.m0 + 1) b.date.d
        ∧ a.start ≤ b.start)

instance : DecidableRel candidateLineLe := by
  intro a b; unfold candidateLineLe; infer_instance

/-- The `candidateLines` memo of `src/src/App.tsx` lines 728–736: one
`CandidateLine` per stored range, sorted by date then start. -/
def candidateLinesV2 (adr : List (String × List Range)) : List CandidateLine :=
  (adr.flatMap (fun kv => kv.2.map (fun r => ⟨parseDayKey kv.1, r.start, r.endM⟩))).insertionSort
    candidateLineLe

/-- The line list of `formatCandidates` (`src/src/App.tsx` line 564). -/
def formatCandidatesLineList (lines : List CandidateLine) : List String :=
  lines.map (fun l =>
    "・" ++ formatDateJP l.date ++ " " ++ minsToHHmm l.start ++ "–" ++ minsToHHmm l.endM)

/-- `formatCandidates(lines)` of `src/src/App.tsx` lines 561–566. -/
def formatCandidates (lines : List CandidateLine) : String :=
  if lines.length = 0 then "（候補が未選択です）"
  else String.intercalate "\n" (formatCandidatesLineList lines)

/-- C8 counterexample: the `formatCandidates`-based projection of the
`allDayRanges` variant emits one line per stored interval, not one line
per date key: a single date holding two ranges yields two output lines. -/
theorem candidate_projection_one_line_counterexample :
    (formatCandidatesLineList (candidateLinesV2
        [("2025-9-25", [⟨600, 660⟩, ⟨720, 780⟩])])).length = 2
    ∧ ((([("2025-9-25", [⟨600, 660⟩, ⟨720, 780⟩])] : List (String × List Range)).map
          Prod.fst).dedup.length = 1)
    ∧ formatCandidates (candidateLinesV2 [("2025-9-25", [⟨600, 660⟩, ⟨720, 780⟩])])
        = "・9/25(木) 10:00–11:00\n・9/25(木) 12:00–13:00" := by
  refine ⟨by decide, by decide, by decide⟩

/-- C8 amended: the `candidateListText` projection is a pure function
of the collection that returns the fixed placeholder on the empty
collection and, on `{2025-09-25 ↦ [{540, 600}]}`, a single line with
the formatted date and the zero-padded times `09:00` and `10:00`; it
emits exactly one line per distinct `dateKey`, its date keys appear in
strictly ascending order, and within a date the spans follow the slots
in ascending `startMinute` order.  The `formatCandidates` projection of
the `allDayRanges` variant returns its own fixed placeholder on the
empty input but one line per interval rather than per date key. -/
theorem candidate_projection_amended :
    candidateListText [] = "（候補なし）"
    ∧ candidateListText [⟨"x", "2025-09-25", 540, 600⟩] = "・9月25日（木）：09:00〜10:00"
    ∧ (candidateLines [⟨"x", "2025-09-25", 540, 600⟩]).length = 1
    ∧ (∀ slots : List Slot,
        (candidateLines slots).length = ((slots.map Slot.dateISO).dedup).length)
    ∧ (∀ slots : List Slot, (candidateKeys slots).Pairwise (· < ·))
    ∧ (∀ (slots : List Slot) (iso : String),
        ((selectedSlotsSorted slots).filter (fun s => s.dateISO = iso)).Pairwise
          (fun a b => a.start ≤ b.start))
    ∧ mm 540 = "09:00" ∧ mm 65 = "01:05"
    ∧ formatCandidates [] = "（候補が未選択です）"
    ∧ ∀ lines : List CandidateLine,
        (formatCandidatesLineList lines).length = lines.length := by
  refine ⟨by decide, by decide, by decide, ?_, ?_, ?_, by decide, by decide, rfl, ?_⟩
  · intro slots
    unfold candidateLines candidateKeys
    rw [List.length_map]
    rw [(List.perm_insertionSort (· ≤ ·) _).length_eq]
    have hperm : (((selectedSlotsSorted slots).map Slot.dateISO).dedup).Perm
        ((slots.map Slot.dateISO).dedup) :=
      ((List.perm_insertionSort slotLe slots).map Slot.dateISO).dedup
    exact hperm.length_eq
  · intro slots
    unfold candidateKeys
    have hsorted : ((((selectedSlotsSorted slots).map Slot.dateISO).dedup).insertionSort
        (· ≤ ·)).Pairwise (· ≤ · : String → String → Prop) :=
      List.sorted_insertionSort (· ≤ ·) _
    have hnd : ((((selectedSlotsSorted slots).map Slot.dateISO).dedup).insertionSort
        (· ≤ ·)).Nodup :=
      (List.perm_insertionSort (· ≤ ·) _).nodup_iff.mpr (List.nodup_dedup _)
    exact (hsorted.and hnd).imp (fun h => lt_of_le_of_ne h.1 h.2)
  · intro slots iso
    have hsorted : (selectedSlotsSorted slots).Pairwise slotLe :=
      List.sorted_insertionSort slotLe slots
    refine (hsorted.filter (fun s => s.dateISO = iso)).imp_of_mem ?_
    intro a b ha hb hle
    have hda : a.dateISO = iso := of_decide_eq_true (List.mem_filter.mp ha).2
    have hdb : b.dateISO = iso := of_decide_eq_true (List.mem_filter.mp hb).2
    unfold slotLe at hle
    rwa [if_pos (hda.trans hdb.symm)] at hle
  · intro lines
    exact List.length_map lines _

/-! ### Gesture classifier of `src/unnamed/part_000` -/

/-- `yToMinute` of `src/unnamed/part_000` line 59:
`clamp(floorTo15((y / ROW_HEIGHT) * STEP), 0, 1440)` with
`ROW_HEIGHT = 12`, `STEP = 15`; for the real-valued JS arithmetic this
equals `clamp(15 * floor(y / 12), 0, 1440)`. -/
def yToMinute (y : Int) : Int := clamp (15 * Int.fdiv y 12) 0 1440

/-- The `gesture.current` record `{downY, scrollTop, timer?}`. -/
structure GestureRec where
  downY : Int
  scrollTop : Int
  timer : Option Nat
  deriving Repr, DecidableEq

/-- State of the long-press gesture machine: the gesture ref, the
pending (scheduled, neither fired nor cleared) timeouts with the
`startMin` captured by their callback, the next timer id, and the log
of `addOrMergeSlot(dateISO, start, end)` commits. -/
structure TrackState where
  gesture : Option GestureRec
  pending : List (Nat × Int)
  nextTimer : Nat
  commits : List (String × Int × Int)
  activeDateISO : String
  deriving Repr, DecidableEq

/-- Events driving the machine: the pointer events deliver the data the
handlers read from the DOM (`clientY`, `rect.top`, `scrollTop`), and
`fire` is the timeout callback running with the scroll position read at
that moment. -/
inductive TEvent where
  | down (clientY rectTop scrollTop : Int)
  | move (clientY rectTop scrollTop : Int)
  | up
  | cancel
  | fire (id : Nat) (scrollTop : Int)
  deriving Repr, DecidableEq

/-- `window.clearTimeout` on an optional timer id. -/
def clearTimer : Option Nat → List (Nat × Int) → List (Nat × Int)
  | none, p => p
  | some t, p => p.filter (fun q => q.1 ≠ t)

/-- `onTrackPointerUp` / `onPointerCancel` (lines 176–179): clear any
pending timer of the current gesture and reset the gesture ref. -/
def endGesture (st : TrackState) : TrackState :=
  match st.gesture with
  | some g => { st with gesture := none, pending := clearTimer g.timer st.pending }
  | none => { st with gesture := none }

/-- One step of the gesture machine, mirroring `onTrackPointerDown`,
`onTrackPointerMove`, `onTrackPointerUp`/`onPointerCancel`
(`src/unnamed/part_000` lines 137–179) and the `setTimeout` callback of
`onTrackPointerDown` (lines 146–153): the callback only runs while
still scheduled, re-checks the gesture ref and the scroll displacement,
and otherwise commits `addOrMergeSlot(activeDateISO, startMin,
startMin + 30)`. -/
def stepTrack (st : TrackState) : TEvent → TrackState
  | .down cy rt sc =>
    let yRel := cy - rt + sc
    let pending1 :=
      match st.gesture with
      | some g => clearTimer g.timer st.pending
      | none => st.pending
    { st with
        gesture := some ⟨yRel, sc, some st.nextTimer⟩,
        pending := pending1 ++ [(st.nextTimer, yToMinute yRel)],
        nextTimer := st.nextTimer + 1 }
  | .move cy rt sc =>
    match st.gesture with
    | none => st
    | some g =>
      if 3 < (sc - g.scrollTop).natAbs then
        { st with gesture := none, pending := clearTimer g.timer st.pending }
      else if 8 < ((cy - rt + sc) - g.downY).natAbs then
        { st with gesture := none, pending := clearTimer g.timer st.pending }
      else st
  | .up => endGesture st
  | .cancel => endGesture st
  | .fire tid sc =>
    match st.pending.find? (fun q => q.1 == tid) with
    | none => st
    | some q =>
      let st1 := { st with pending := st.pending.filter (fun r => r.1 ≠ tid) }
      match st1.gesture with
      | none => st1
      | some g =>
        if 3 < (sc - g.scrollTop).natAbs then st1
        else { st1 with commits := st1.commits ++ [(st1.activeDateISO, q.2, q.2 + 30)] }

/-- A whole event trace. -/
def runTrack (st : TrackState) (evs : List TEvent) : TrackState :=
  evs.foldl stepTrack st

theorem mem_clearTimer {o : Option Nat} {p : List (Nat × Int)} {q : Nat × Int}
    (h : q ∈ clearTimer o p) : q ∈ p := by
  cases o with
  | none => exact h
  | some t => exact (List.mem_filter.mp h).1

theorem mem_clearTimer_some {t : Nat} {p : List (Nat × Int)} {q : Nat × Int}
    (h : q ∈ clearTimer (some t) p) : q.1 ≠ t :=
  of_decide_eq_true (List.mem_filter.mp h).2

theorem stepTrack_move_commits (st : TrackState) (cy rt sc : Int) :
    (stepTrack st (.move cy rt sc)).commits = st.commits := by
  rcases st with ⟨g, p, n, c, a⟩
  cases g with
  | none => rfl
  | some gr =>
    simp only [stepTrack]
    split_ifs <;> rfl

theorem stepTrack_down_commits (st : TrackState) (cy rt sc : Int) :
    (stepTrack st (.down cy rt sc)).commits = st.commits := by
  rcases st with ⟨g, p, n, c, a⟩
  cases g <;> rfl

theorem stepTrack_move_ends (st : TrackState) (cy rt sc : Int) (g : GestureRec)
    (hg : st.gesture = some g)
    (h : 3 < (sc - g.scrollTop).natAbs ∨ 8 < ((cy - rt + sc) - g.downY).natAbs) :
    (stepTrack st (.move cy rt sc)).gesture = none
      ∧ ∀ t, g.timer = some t → ∀ q ∈ (stepTrack st (.move cy rt sc)).pending, q.1 ≠ t := by
  rcases st with ⟨g0, p, n, c, a⟩
  cases g0 with
  | none => cases hg
  | some gr =>
    cases hg
    simp only [stepTrack]
    by_cases h1 : 3 < (sc - g.scrollTop).natAbs
    · rw [if_pos h1]
      refine ⟨rfl, ?_⟩
      intro t ht q hq
      rw [ht] at hq
      exact mem_clearTimer_some hq
    · rw [if_neg h1]
      rcases h with h | h
      · exact absurd h h1
      · rw [if_pos h]
        refine ⟨rfl, ?_⟩
        intro t ht q hq
        rw [ht] at hq
        exact mem_clearTimer_some hq

theorem endGesture_ends (st : TrackState) :
    (endGesture st).gesture = none ∧ (endGesture st).commits = st.commits
      ∧ (endGesture st).nextTimer = st.nextTimer
      ∧ (∀ q ∈ (endGesture st).pending, q ∈ st.pending)
      ∧ ∀ (g : GestureRec) (t : Nat), st.gesture = some g → g.timer = some t →
          ∀ q ∈ (endGesture st).pending, q.1 ≠ t := by
  rcases st with ⟨g, p, n, c, a⟩
  cases g with
  | none => exact ⟨rfl, rfl, rfl, fun q hq => hq, fun g t hg => by cases hg⟩
  | some gr =>
    refine ⟨rfl, rfl, rfl, fun q hq => mem_clearTimer hq, ?_⟩
    intro g2 t hg ht q hq
    cases hg
    simp only [endGesture] at hq
    rw [ht] at hq
    exact mem_clearTimer_some hq

theorem stepTrack_preserves_unscheduled (st : TrackState) (t : Nat) (ev : TEvent)
    (hp : ∀ q ∈ st.pending, q.1 ≠ t) (hn : t < st.nextTimer) :
    (∀ q ∈ (stepTrack st ev).pending, q.1 ≠ t) ∧ t < (stepTrack st ev).nextTimer := by
  rcases st with ⟨g, p, n, c, a⟩
  cases ev with
  | down cy rt sc =>
    constructor
    · intro q hq
      simp only [stepTrack] at hq
      rcases List.mem_append.mp hq with hq | hq
      · have hq2 : q ∈ p := by
          cases g with
          | none => exact hq
          | some gr => exact mem_clearTimer hq
        exact hp q hq2
      · rcases List.mem_singleton.mp hq with rfl
        show n ≠ t
        dsimp only at hn
        omega
    · show t < n + 1
      dsimp only at hn
      omega
  | move cy rt sc =>
    cases g with
    | none => exact ⟨hp, hn⟩
    | some gr =>
      simp only [stepTrack]
      split_ifs
      · exact ⟨fun q hq => hp q (mem_clearTimer hq), hn⟩
      · exact ⟨fun q hq => hp q (mem_clearTimer hq), hn⟩
      · exact ⟨hp, hn⟩
  | up =>
    refine ⟨fun q hq => hp q ((endGesture_ends ⟨g, p, n, c, a⟩).2.2.2.1 q hq), ?_⟩
    have h3 := (endGesture_ends (⟨g, p, n, c, a⟩ : TrackState)).2.2.1
    show t < (endGesture ⟨g, p, n, c, a⟩).nextTimer
    rw [h3]
    exact hn
  | cancel =>
    refine ⟨fun q hq => hp q ((endGesture_ends ⟨g, p, n, c, a⟩).2.2.2.1 q hq), ?_⟩
    have h3 := (endGesture_ends (⟨g, p, n, c, a⟩ : TrackState)).2.2.1
    show t < (endGesture ⟨g, p, n, c, a⟩).nextTimer
    rw [h3]
    exact hn
  | fire tid sc =>
    simp only [stepTrack]
    cases hfind : List.find? (fun q => q.1 == tid) p with
    | none => exact ⟨hp, hn⟩
    | some q0 =>
      cases g with
      | none =>
        dsimp only
        exact ⟨fun q hq => hp q (List.mem_filter.mp hq).1, hn⟩
      | some gr =>
        dsimp only
        split_ifs
        · exact ⟨fun q hq => hp q (List.mem_filter.mp hq).1, hn⟩
        · exact ⟨fun q hq => hp q (List.mem_filter.mp hq).1, hn⟩

theorem stepTrack_fire_unscheduled (st : TrackState) (t : Nat) (sc : Int)
    (hp : ∀ q ∈ st.pending, q.1 ≠ t) :
    stepTrack st (.fire t sc) = st := by
  rcases st with ⟨g, p, n, c, a⟩
  simp only [stepTrack]
  have hfind : List.find? (fun q => q.1 == t) p = none := by
    rw [List.find?_eq_none]
    intro x hx
    simpa using hp x hx
  rw [hfind]

theorem runTrack_preserves_unscheduled (evs : List TEvent) :
    ∀ (st : TrackState) (t : Nat), (∀ q ∈ st.pending, q.1 ≠ t) → t < st.nextTimer →
      (∀ q ∈ (runTrack st evs).pending, q.1 ≠ t) ∧ t < (runTrack st evs).nextTimer := by
  induction evs with
  | nil => intro st t hp hn; exact ⟨hp, hn⟩
  | cons e es ih =>
    intro st t hp hn
    have h := stepTrack_preserves_unscheduled st t e hp hn
    exact ih (stepTrack st e) t h.1 h.2

theorem stepTrack_fire_scrolled (st : TrackState) (tid : Nat) (sc : Int) (g : GestureRec)
    (hg : st.gesture = some g) (hs : 3 < (sc - g.scrollTop).natAbs) :
    (stepTrack st (.fire tid sc)).commits = st.commits := by
  rcases st with ⟨g0, p, n, c, a⟩
  cases hg
  simp only [stepTrack]
  cases hfind : List.find? (fun q => q.1 == tid) p with
  | none => rfl
  | some q0 =>
    dsimp only
    rw [if_pos hs]

/-- C2: every code path that ends a gesture without a commit cancels
the pending long-press timer and prevents any later model mutation from
that gesture: (1) a move that crosses the scroll threshold (scrolling
wins) or the move threshold resets the gesture, leaves the commit log
untouched and removes the gesture's timer from the pending set;
(2) pointerup and pointercancel do the same; (3) firing a timer that is
no longer pending is a no-op; (4) along any later event trace a
cancelled timer stays cancelled (fresh ids are never reused), so no
commit from the ended gesture can ever occur; (5) even a timer that
does fire commits nothing when the track has scrolled beyond the
threshold. -/
theorem gesture_end_cancels_timer_no_stale_commit :
    (∀ (st : TrackState) (cy rt sc : Int) (g : GestureRec), st.gesture = some g →
      3 < (sc - g.scrollTop).natAbs ∨ 8 < ((cy - rt + sc) - g.downY).natAbs →
      (stepTrack st (.move cy rt sc)).gesture = none
        ∧ (stepTrack st (.move cy rt sc)).commits = st.commits
        ∧ ∀ t, g.timer = some t → ∀ q ∈ (stepTrack st (.move cy rt sc)).pending, q.1 ≠ t)
    ∧ (∀ st : TrackState,
        (stepTrack st TEvent.up).gesture = none
        ∧ (stepTrack st TEvent.up).commits = st.commits
        ∧ (stepTrack st TEvent.cancel).gesture = none
        ∧ (stepTrack st TEvent.cancel).commits = st.commits
        ∧ ∀ (g : GestureRec) (t : Nat), st.gesture = some g → g.timer = some t →
            (∀ q ∈ (stepTrack st TEvent.up).pending, q.1 ≠ t)
            ∧ ∀ q ∈ (stepTrack st TEvent.cancel).pending, q.1 ≠ t)
    ∧ (∀ (st : TrackState) (t : Nat) (sc : Int),
        (∀ q ∈ st.pending, q.1 ≠ t) → stepTrack st (.fire t sc) = st)
    ∧ (∀ (evs : List TEvent) (st : TrackState) (t : Nat),
        (∀ q ∈ st.pending, q.1 ≠ t) → t < st.nextTimer →
        ∀ sc, stepTrack (runTrack st evs) (.fire t sc) = runTrack st evs)
    ∧ (∀ (st : TrackState) (tid : Nat) (sc : Int) (g : GestureRec),
        st.gesture = some g → 3 < (sc - g.scrollTop).natAbs →
        (stepTrack st (.fire tid sc)).commits = st.commits) := by
  refine ⟨?_, ?_, ?_, ?_, ?_⟩
  · intro st cy rt sc g hg h
    obtain ⟨h1, h2⟩ := stepTrack_move_ends st cy rt sc g hg h
    exact ⟨h1, stepTrack_move_commits st cy rt sc, h2⟩
  · intro st
    have hu := endGesture_ends st
    exact ⟨hu.1, hu.2.1, hu.1, hu.2.1,
      fun g t hg ht => ⟨hu.2.2.2.2 g t hg ht, hu.2.2.2.2 g t hg ht⟩⟩
  · exact stepTrack_fire_unscheduled
  · intro evs st t hp hn sc
    have h := runTrack_preserves_unscheduled evs st t hp hn
    exact stepTrack_fire_unscheduled _ t sc h.1
  · exact stepTrack_fire_scrolled

theorem gesture_end_cancels_timer_no_stale_commit_witness :
    (stepTrack (⟨some ⟨100, 0, some 5⟩, [(5, 600)], 6, [], "2025-09-25"⟩ : TrackState)
        (TEvent.move 100 0 10)).gesture = none
      ∧ (stepTrack (⟨some ⟨100, 0, some 5⟩, [(5, 600)], 6, [], "2025-09-25"⟩ : TrackState)
          (TEvent.move 100 0 10)).commits
        = (⟨some ⟨100, 0, some 5⟩, [(5, 600)], 6, [], "2025-09-25"⟩ : TrackState).commits
      ∧ ∀ q ∈ (stepTrack (⟨some ⟨100, 0, some 5⟩, [(5, 600)], 6, [], "2025-09-25"⟩ : TrackState)
          (TEvent.move 100 0 10)).pending, q.1 ≠ 5 := by
  obtain ⟨h1, h2, h3⟩ := gesture_end_cancels_timer_no_stale_commit.1
    ⟨some ⟨100, 0, some 5⟩, [(5, 600)], 6, [], "2025-09-25"⟩ 100 0 10 ⟨100, 0, some 5⟩
    rfl (by decide)
  exact ⟨h1, h2, h3 5 rfl⟩

/-! ### Resize handlers of `src/unnamed/part_000` and the lane handlers
of the `allDayRanges` variant of `src/src/App.tsx` -/

/-- The `dragging` record of `src/unnamed/part_000` lines 44–50
(`isStart` encodes `mode === "resize-start"`). -/
structure DragRec where
  isStart : Bool
  slotId : String
  originalSlot : Slot
  currentStart : Int
  currentEnd : Int
  deriving Repr, DecidableEq

/-- Transient resize state plus the committed slot collection. -/
structure ResizeState where
  dragging : Option DragRec
  slots : List Slot
  deriving Repr, DecidableEq

/-- `handlePointerMove` of `src/unnamed/part_000` lines 185–212: while
resizing, recompute the tentative edge minute and store it in the
transient `dragging` state (`setDragging`) — the committed `slots` are
not touched. -/
def handleResizeMove (st : ResizeState) (clientY rectTop scrollTop : Int) : ResizeState :=
  match st.dragging with
  | none => st
  | some dr =>
    let targetMin := yToMinute (clientY - rectTop + scrollTop)
    let newStart := if dr.isStart
      then clamp (min targetMin (dr.originalSlot.endM - 30)) 0 1425
      else dr.originalSlot.start
    let newEnd := if dr.isStart
      then dr.originalSlot.endM
      else clamp (max targetMin (dr.originalSlot.start + 30)) 30 1440
    { st with dragging := some { dr with currentStart := newStart, currentEnd := newEnd } }

/-- `handlePointerUp` of `src/unnamed/part_000` lines 214–226: the
gesture's only commit point — `addOrMergeSlot(dateISO, currentStart,
currentEnd, slotId)` — then the transient state is reset. -/
def handleResizeUp (st : ResizeState) (fid : String) : ResizeState :=
  match st.dragging with
  | none => st
  | some dr =>
    { dragging := none,
      slots := addOrMergeSlot st.slots dr.originalSlot.dateISO dr.currentStart dr.currentEnd
        (some dr.slotId) fid }

/-- Lane geometry of the `allDayRanges` variant:
`LANE_START = 0`, `LANE_END = 1440`, `STEP = 30`, `ROW_H = 40`. -/
def LANE_START : Int := 0

def LANE_END : Int := 1440

def STEP : Int := 30

def ROW_H : Int := 40

def totalSlots : Int := (LANE_END - LANE_START) / STEP

/-- Component state of the `allDayRanges` variant that the lane
handlers read and write (`laneTop` stands for the lane's bounding
rect top). -/
structure V2State where
  dragging : Bool
  hoverIdx : Option Int
  resizing : Option (Nat × Bool)
  selectedDate : Option CDate
  allDayRanges : List (String × List Range)
  laneTop : Int
  deriving Repr, DecidableEq

/-- Record lookup `allDayRanges[key] ?? []`. -/
def lookupRanges (adr : List (String × List Range)) (k : String) : List Range :=
  match adr.find? (fun kv => kv.1 == k) with
  | some kv => kv.2
  | none => []

/-- Record update `{ ...prev, [key]: v }`. -/
def setRanges (adr : List (String × List Range)) (k : String) (v : List Range) :
    List (String × List Range) :=
  if adr.any (fun kv => kv.1 == k) then adr.map (fun kv => if kv.1 == k then (k, v) else kv)
  else adr ++ [(k, v)]

/-- `currentDayKey` (`src/src/App.tsx` line 671). -/
def currentDayKey (st : V2State) : Option String := st.selectedDate.map toDayKey

/-- `dayRanges` (`src/src/App.tsx` line 672). -/
def dayRanges (st : V2State) : List Range :=
  match currentDayKey st with
  | some k => lookupRanges st.allDayRanges k
  | none => []

/-- `idxFromClientY` of `src/src/App.tsx` lines 677–682. -/
def idxFromClientY (st : V2State) (clientY : Int) : Int :=
  let y := min (max (clientY - st.laneTop) 0) (totalSlots * ROW_H - 1)
  Int.fdiv y ROW_H

/-- `updateRangeAt` of `src/src/App.tsx` lines 696–704: clamp the new
range, overwrite the indexed entry and store the re-merged list into
the committed `allDayRanges`. -/
def updateRangeAt (st : V2State) (index : Nat) (next : Range) : V2State :=
  match currentDayKey st with
  | none => st
  | some k =>
    let nstart := max LANE_START (min next.start (LANE_END - STEP))
    let nend := max (nstart + STEP) (min next.endM LANE_END)
    { st with allDayRanges :=
        setRanges st.allDayRanges k (mergeRanges ((dayRanges st).set index ⟨nstart, nend⟩)) }

/-- `handleLanePointerMove` of `src/src/App.tsx` lines 777–787: while
dragging, update the transient hover index; while resizing, recompute
the dragged edge and write it into the committed collection via
`updateRangeAt` on every move event. -/
def handleLanePointerMove (st : V2State) (clientY : Int) : V2State :=
  let idx := idxFromClientY st clientY
  let st1 := if st.dragging then { st with hoverIdx := some idx } else st
  match st1.resizing, st1.selectedDate with
  | some iw, some _ =>
    let r := (dayRanges st1).getD iw.1 ⟨0, 0⟩
    let val := LANE_START + idx * STEP
    let r2 := if iw.2 then { r with start := min val (r.endM - STEP) }
      else { r with endM := max (val + STEP) (r.start + STEP) }
    updateRangeAt st1 iw.1 r2
  | _, _ => st1

/-- C9 counterexample: in the `allDayRanges` variant, a pointer-move
during an active resize gesture mutates the committed collection
immediately — `handleLanePointerMove` routes the recomputed edge
through `updateRangeAt`, which stores the re-merged ranges.  Moving the
end edge of `{600, 660}` on 2025-09-25 to row index 30 rewrites the
committed entry to `{600, 930}` before any pointer-up. -/
theorem move_mutates_model_counterexample :
    (handleLanePointerMove
        ⟨false, none, some (0, false), some ⟨2025, 8, 25⟩, [("2025-9-25", [⟨600, 660⟩])], 0⟩
        1200).allDayRanges
      ≠ [("2025-9-25", [⟨600, 660⟩])]
    ∧ (handleLanePointerMove
        ⟨false, none, some (0, false), some ⟨2025, 8, 25⟩, [("2025-9-25", [⟨600, 660⟩])], 0⟩
        1200).allDayRanges
      = [("2025-9-25", [⟨600, 930⟩])] := by
  refine ⟨by decide, by decide⟩

/-- C9 amended: in the `part_000` component the committed model is
mutated only at commit points — pointer-move and pointer-down events of
the long-press machine never change the commit log, and the global
resize move handler only rewrites the transient `dragging` state,
leaving the committed slots untouched.  In the `allDayRanges` variant
the same holds for moves outside a resize (drag-to-create moves update
only the transient hover index), but a move during an active resize
writes the committed collection immediately. -/
theorem moves_do_not_mutate_amended :
    (∀ (st : TrackState) (cy rt sc : Int),
      (stepTrack st (.move cy rt sc)).commits = st.commits
        ∧ (stepTrack st (.down cy rt sc)).commits = st.commits)
    ∧ (∀ (st : ResizeState) (cy rt sc : Int), (handleResizeMove st cy rt sc).slots = st.slots)
    ∧ (∀ (st : V2State) (cy : Int), st.resizing = none →
        (handleLanePointerMove st cy).allDayRanges = st.allDayRanges) := by
  refine ⟨fun st cy rt sc =>
    ⟨stepTrack_move_commits st cy rt sc, stepTrack_down_commits st cy rt sc⟩, ?_, ?_⟩
  · intro st cy rt sc
    rcases st with ⟨dr, sl⟩
    cases dr <;> rfl
  · intro st cy hres
    rcases st with ⟨dg, hov, res, sel, adr, ltop⟩
    dsimp only at hres
    subst hres
    cases dg <;> cases sel <;> rfl

theorem moves_do_not_mutate_amended_witness :
    (handleLanePointerMove
        ⟨true, none, none, some ⟨2025, 8, 25⟩, [("2025-9-25", [⟨600, 660⟩])], 0⟩
        1200).allDayRanges
      = [("2025-9-25", [⟨600, 660⟩])] :=
  moves_do_not_mutate_amended.2.2
    ⟨true, none, none, some ⟨2025, 8, 25⟩, [("2025-9-25", [⟨600, 660⟩])], 0⟩ 1200 rfl
